import Mathlib

/-!
Shallow embedding of the ActionKV log-structured key-value store
(`src/lib.rs`, `src/akv_disk.rs`).

The file held by the engine is modelled as a list of bytes together with an
explicit cursor.  The scan loops (`load`, `find`) reposition their reader
with `seek(SeekFrom::Current(0))` at each iteration, which discards the
`BufReader` buffer and realigns the underlying offset with the bytes
consumed, so their cursor tracking is exact; `get_at`'s single-record read
instead goes through a fresh 8 KiB `BufReader` that is dropped without
restoring the file offset, leaving the underlying cursor at
`min(position + 8192, end-of-file)` — the model uses that value (exact
whenever the record fits in the first buffer fill, which every record in
this development does).  A write seeks to end-of-file (the file is opened
with `append`) and leaves the cursor at the new end.  Machine integers are
`Nat` with explicit `% 2^32` where the Rust code truncates (`as u32`, u32
wrap-around addition).  `panic!` (data corruption) and Vec::split_off's
out-of-range panic are modelled as distinguished result constructors, as
is the `UnexpectedEof` io error kind.
-/

set_option maxRecDepth 40000

/-- Byte strings (Rust `Vec<u8>` / `&[u8]`); a byte is a `Nat` (< 256 for
real data, operations are total on all of `Nat`). -/
abbrev ByteString := List Nat

/-- One shift-and-conditionally-xor step of the MSB-first CRC-32 with the
CKSUM polynomial 0x04C11DB7 (the `crc` crate's `CRC_32_CKSUM` parameters:
init 0, no reflection, xorout 0xFFFFFFFF). -/
def crcStep (c : Nat) : Nat :=
  if c.testBit 31 then ((c * 2) % 4294967296) ^^^ 79764919
  else (c * 2) % 4294967296

/-- Absorb one byte into the running CRC state (MSB-first, unreflected). -/
def crcByte (c b : Nat) : Nat :=
  crcStep^[8] (c ^^^ ((b % 256) * 16777216))

/-- `CRC32.checksum(data)` from `lib.rs` line 25/91/171: CRC-32/CKSUM. -/
def crc32 (data : ByteString) : Nat :=
  (data.foldl crcByte 0) ^^^ 4294967295

/-- `write_u32::<LittleEndian>`: the four little-endian bytes of `n % 2^32`
(a Rust `as u32` cast stores the value modulo 2^32). -/
def u32le (n : Nat) : ByteString :=
  [n % 256, n / 256 % 256, n / 65536 % 256, n / 16777216 % 256]

/-- `read_u32::<LittleEndian>`: consume four bytes, little-endian; `none`
models the `UnexpectedEof` io error when fewer than four bytes remain. -/
def readU32 : ByteString → Option (Nat × ByteString)
  | b0 :: b1 :: b2 :: b3 :: rest =>
      some (b0 % 256 + (b1 % 256) * 256 + (b2 % 256) * 65536 +
            (b3 % 256) * 16777216, rest)
  | _ => none

/-- `KeyValuePair` from `lib.rs`. -/
structure KeyValuePair where
  key : ByteString
  value : ByteString
deriving DecidableEq

/-- Result of decoding one framed record (`ActionKV::process_record`).
`ok kv dataLen` carries the decoded pair and the number of key+value bytes
read (the whole frame consumed `12 + dataLen` bytes).  `endOfLog` is the
`UnexpectedEof` io error from a header read; `corruption computed stored`
is the `panic!("data corruption …")`; `splitPanic` is the panic of
`Vec::split_off` when `saved_key_len` exceeds the data actually read. -/
inductive RecResult where
  | ok : KeyValuePair → Nat → RecResult
  | endOfLog : RecResult
  | corruption : Nat → Nat → RecResult
  | splitPanic : RecResult
deriving DecidableEq

/-- `ActionKV::process_record` (`lib.rs` 159-183) on the bytes from the
cursor to end-of-file.  `data_len` is u32 wrap-around addition (release
semantics; the `debug_assert_eq` is compiled out).  `take(data_len)
.read_to_end` reads at most `data_len` bytes and does not error at EOF. -/
def process_record (src : ByteString) : RecResult :=
  match readU32 src with
  | none => .endOfLog
  | some (saved_checksum, r1) =>
    match readU32 r1 with
    | none => .endOfLog
    | some (saved_key_len, r2) =>
      match readU32 r2 with
      | none => .endOfLog
      | some (saved_value_len, r3) =>
        let data_len := (saved_key_len + saved_value_len) % 4294967296
        let data := r3.take data_len
        let checksum := crc32 data
        if checksum ≠ saved_checksum then .corruption checksum saved_checksum
        else if data.length < saved_key_len then .splitPanic
        else .ok ⟨data.take saved_key_len, data.drop saved_key_len⟩ data.length

/-- Result of the scan loops in `load` and `find`: the decoded records with
the offset each one started at plus the final cursor, or the propagated
process-aborting outcome. -/
inductive ScanResult where
  | done : List (Nat × KeyValuePair) → Nat → ScanResult
  | panicked : Nat → Nat → ScanResult
  | splitPanicked : ScanResult
deriving DecidableEq

/-- Iteration-bounded implementation of the scan loop: record the current
offset, decode one record, stop on `UnexpectedEof`, abort on a corruption
panic.  The fuel argument only serves to make the recursion structural;
each loop iteration consumes at least the 12 header bytes, so the fuel
`scanLog` supplies can never run out — `scanLog_unfold` below proves the
unconditional loop equation. -/
def scanLogAux : Nat → ByteString → Nat → ScanResult
  | 0, _, pos => .done [] pos
  | fuel + 1, src, pos =>
    match process_record src with
    | .endOfLog => .done [] pos
    | .corruption c s => .panicked c s
    | .splitPanic => .splitPanicked
    | .ok kv dataLen =>
      match scanLogAux fuel (src.drop (12 + dataLen)) (pos + 12 + dataLen) with
      | .done recs fin => .done ((pos, kv) :: recs) fin
      | r => r

/-- The shared loop of `ActionKV::load` and `ActionKV::find`. -/
def scanLog (src : ByteString) (pos : Nat) : ScanResult :=
  scanLogAux (src.length + 1) src pos

/-- `HashMap::insert`: replace the binding if the key is present, else add
it (the in-memory index is modelled as an association list). -/
def idxInsert (k : ByteString) (v : Nat) :
    List (ByteString × Nat) → List (ByteString × Nat)
  | [] => [(k, v)]
  | (k', v') :: rest =>
      if k' = k then (k, v) :: rest else (k', v') :: idxInsert k v rest

/-- `HashMap::get`. -/
def idxLookup (k : ByteString) : List (ByteString × Nat) → Option Nat
  | [] => none
  | (k', v') :: rest => if k' = k then some v' else idxLookup k rest

/-- `HashMap::remove`. -/
def idxRemove (k : ByteString) (ix : List (ByteString × Nat)) :
    List (ByteString × Nat) :=
  ix.filter (fun p => p.1 ≠ k)

/-- `ActionKV` from `lib.rs`: the log file's bytes, the file cursor, and
the in-memory key → offset index. -/
structure ActionKV where
  file : ByteString
  cursor : Nat
  index : List (ByteString × Nat)
deriving DecidableEq

/-- Outcome of an engine operation: `ok`, a propagated io error
(`UnexpectedEof` surfacing from `get_at`), the data-corruption `panic!`,
or the `split_off` panic. -/
inductive Outcome (α : Type) where
  | ok : α → Outcome α
  | ioError : Outcome α
  | panicked : Nat → Nat → Outcome α
  | splitPanicked : Outcome α
deriving DecidableEq

/-- Extract the `ok` payload, with a default. -/
def Outcome.getD {α : Type} : Outcome α → α → α
  | .ok a, _ => a
  | _, d => d

/-- `ActionKV::open` (`lib.rs` 28-37): open read/write/create/append; the
index starts empty and the read cursor at 0.  (Named `openFile` because
`open` is a Lean keyword.) -/
def ActionKV.openFile (file : ByteString) : ActionKV :=
  { file := file, cursor := 0, index := [] }

/-- Fold the scanned records into an index exactly as the `load` loop's
`self.index.insert(kv.key, pos)` does. -/
def foldIdx (recs : List (Nat × KeyValuePair))
    (ix : List (ByteString × Nat)) : List (ByteString × Nat) :=
  recs.foldl (fun a r => idxInsert r.2.key r.1 a) ix

/-- `ActionKV::load` (`lib.rs` 39-60): scan forward from the current
cursor, inserting each decoded record's key at its offset into the
existing index (the index is not cleared and the cursor is not rewound). -/
def ActionKV.load (s : ActionKV) : Outcome ActionKV :=
  match scanLog (s.file.drop s.cursor) s.cursor with
  | .done recs fin =>
      .ok { s with index := foldIdx recs s.index, cursor := fin }
  | .panicked c st => .panicked c st
  | .splitPanicked => .splitPanicked

/-- `ActionKV::insert_but_ignore_index` (`lib.rs` 73-102): checksum over
`key ++ value`, capture the current cursor position as the returned
offset, then seek to end-of-file and append
`checksum | key_len | value_len | key | value` (lengths as `u32`). -/
def ActionKV.insert_but_ignore_index (s : ActionKV)
    (key value : ByteString) : Nat × ActionKV :=
  let tmp := key ++ value
  let checksum := crc32 tmp
  let current_position := s.cursor
  let frame := u32le checksum ++ u32le key.length ++ u32le value.length ++ tmp
  (current_position,
   { s with file := s.file ++ frame,
            cursor := s.file.length + frame.length })

/-- `ActionKV::insert` (`lib.rs` 62-67): append the frame, then set
`index[key]` to the returned position. -/
def ActionKV.insert (s : ActionKV) (key value : ByteString) : ActionKV :=
  let r := s.insert_but_ignore_index key value
  { r.2 with index := idxInsert key r.1 r.2.index }

/-- `ActionKV::get_at` (`lib.rs` 115-121): seek to `position` and decode
exactly one record; any `process_record` io error is propagated.  The
8 KiB `BufReader` reads ahead and is dropped without restoring the file
offset, so the cursor afterwards is `min(position + 8192, end-of-file)`
(exact whenever the record fits in the first buffer fill,
`12 + dataLen ≤ 8192`; no theorem below reads past that envelope). -/
def ActionKV.get_at (s : ActionKV) (position : Nat) :
    Outcome (KeyValuePair × ActionKV) :=
  match process_record (s.file.drop position) with
  | .ok kv _ => .ok (kv, { s with cursor := min (position + 8192) s.file.length })
  | .endOfLog => .ioError
  | .corruption c st => .panicked c st
  | .splitPanic => .splitPanicked

/-- `ActionKV::get` (`lib.rs` 104-113): index lookup, then `get_at`. -/
def ActionKV.get (s : ActionKV) (key : ByteString) :
    Outcome (Option ByteString × ActionKV) :=
  match idxLookup key s.index with
  | none => .ok (none, s)
  | some pos =>
    match s.get_at pos with
    | .ok (kv, s') => .ok (some kv.value, s')
    | .ioError => .ioError
    | .panicked c st => .panicked c st
    | .splitPanicked => .splitPanicked

/-- The `found` accumulator of the `find` loop: each matching record
overwrites the previous match. -/
def findFold (recs : List (Nat × KeyValuePair)) (target : ByteString)
    (acc : Option (Nat × ByteString)) : Option (Nat × ByteString) :=
  recs.foldl
    (fun found r => if r.2.key = target then some (r.1, r.2.value) else found)
    acc

/-- `ActionKV::find` (`lib.rs` 123-147): scan forward from the current
cursor (the loop performs no seek to the start), keeping the last record
whose key equals the target. -/
def ActionKV.find (s : ActionKV) (target : ByteString) :
    Outcome (Option (Nat × ByteString) × ActionKV) :=
  match scanLog (s.file.drop s.cursor) s.cursor with
  | .done recs fin => .ok (findFold recs target none, { s with cursor := fin })
  | .panicked c st => .panicked c st
  | .splitPanicked => .splitPanicked

/-- `ActionKV::update` (`lib.rs` 150-152): identical to `insert`. -/
def ActionKV.update (s : ActionKV) (key value : ByteString) : ActionKV :=
  s.insert key value

/-- `ActionKV::delete` (`lib.rs` 154-157): `insert(key, b"")`. -/
def ActionKV.delete (s : ActionKV) (key : ByteString) : ActionKV :=
  s.insert key []

/-- The on-disk frame produced for one record: exactly the bytes
`insert_but_ignore_index` appends. -/
def encodeFrame (key value : ByteString) : ByteString :=
  u32le (crc32 (key ++ value)) ++ u32le key.length ++ u32le value.length ++
    key ++ value

/-- A log that is a clean concatenation of frames. -/
def encodeLog : List (ByteString × ByteString) → ByteString
  | [] => []
  | (k, v) :: rest => encodeFrame k v ++ encodeLog rest

/-- Key/value pair whose frame survives the `u32` length casts intact. -/
def pairOk (p : ByteString × ByteString) : Prop :=
  p.1.length + p.2.length < 4294967296

instance (p : ByteString × ByteString) : Decidable (pairOk p) := by
  unfold pairOk; infer_instance

/-- The records of a clean log `encodeLog pairs`, paired with the offset at
which each frame starts when the log begins at offset `pos`. -/
def offsetRecords : List (ByteString × ByteString) → Nat →
    List (Nat × KeyValuePair)
  | [], _ => []
  | (k, v) :: rest, pos =>
      (pos, ⟨k, v⟩) :: offsetRecords rest (pos + 12 + (k.length + v.length))

/-- The offset of the last record in `recs` whose key is `k`. -/
def lastRecOffset : List (Nat × KeyValuePair) → ByteString → Option Nat
  | [], _ => none
  | r :: rest, k =>
    match lastRecOffset rest k with
    | some o => some o
    | none => if r.2.key = k then some r.1 else none

/-- Specification-side mapping, following the spec's words: the byte offset
of the *last* record for a key observed during a forward scan of the log
(`base` is the offset at which the scan starts). -/
def specLastOffset : List (ByteString × ByteString) → Nat → ByteString →
    Option Nat
  | [], _, _ => none
  | (key, v) :: rest, base, k =>
    match specLastOffset rest (base + 12 + (key.length + v.length)) k with
    | some o => some o
    | none => if key = k then some base else none

/-- Specification-side `find`, following the spec's words: the last record
in the scanned region whose key matches, with its offset and value. -/
def specFind : List (ByteString × ByteString) → Nat → ByteString →
    Option (Nat × ByteString)
  | [], _, _ => none
  | (key, v) :: rest, base, k =>
    match specFind rest (base + 12 + (key.length + v.length)) k with
    | some r => some r
    | none => if key = k then some (base, v) else none

/-- Eight little-endian bytes of `n % 2^64` (a Rust `u64`). -/
def u64le (n : Nat) : ByteString :=
  [n % 256, n / 256 % 256, n / 65536 % 256, n / 16777216 % 256,
   n / 4294967296 % 256, n / 1099511627776 % 256,
   n / 281474976710656 % 256, n / 72057594037927936 % 256]

/-- Consume eight little-endian bytes as a `u64`. -/
def readU64 : ByteString → Option (Nat × ByteString)
  | b0 :: b1 :: b2 :: b3 :: b4 :: b5 :: b6 :: b7 :: rest =>
      some (b0 % 256 + (b1 % 256) * 256 + (b2 % 256) * 65536 +
            (b3 % 256) * 16777216 + (b4 % 256) * 4294967296 +
            (b5 % 256) * 1099511627776 + (b6 % 256) * 281474976710656 +
            (b7 % 256) * 72057594037927936, rest)
  | _ => none

/-- `bincode::serialize` of one index entry (`Vec<u8>` key, `u64` offset)
under bincode's default fixed-size little-endian encoding: u64 key length,
key bytes, u64 offset. -/
def serializeEntry (e : ByteString × Nat) : ByteString :=
  u64le e.1.length ++ e.1 ++ u64le e.2

/-- The concatenated encodings of the index entries, in index order (the
model's association-list order stands in for `HashMap` iteration order). -/
def serializeEntries : List (ByteString × Nat) → ByteString
  | [] => []
  | e :: rest => serializeEntry e ++ serializeEntries rest

/-- `bincode::serialize(&a.index)`: u64 entry count, then the entries. -/
def serializeIndex (ix : List (ByteString × Nat)) : ByteString :=
  u64le ix.length ++ serializeEntries ix

/-- Decode one serialized index entry. -/
def readEntry (src : ByteString) : Option ((ByteString × Nat) × ByteString) :=
  match readU64 src with
  | none => none
  | some (klen, r1) =>
    if klen ≤ r1.length then
      match readU64 (r1.drop klen) with
      | none => none
      | some (off, r2) => some ((r1.take klen, off), r2)
    else none

/-- Decode `n` serialized index entries. -/
def readEntries : Nat → ByteString → Option (List (ByteString × Nat))
  | 0, _ => some []
  | n + 1, src =>
    match readEntry src with
    | none => none
    | some (e, rest) =>
      match readEntries n rest with
      | none => none
      | some es => some (e :: es)

/-- `bincode::deserialize` of an index snapshot. -/
def deserializeIndex (src : ByteString) : Option (List (ByteString × Nat)) :=
  match readU64 src with
  | none => none
  | some (n, rest) => readEntries n rest

/-- Index whose entries survive the `u64` fields of the snapshot encoding. -/
def idxWF (ix : List (ByteString × Nat)) : Prop :=
  ix.length < 18446744073709551616 ∧
    ∀ e ∈ ix, e.1.length < 18446744073709551616 ∧
      e.2 < 18446744073709551616

instance (ix : List (ByteString × Nat)) : Decidable (idxWF ix) := by
  unfold idxWF; infer_instance

/-- `store_index_on_disk` (`akv_disk.rs` 26-31): remove the sentinel key,
serialize the remaining index, reset the in-memory index to empty, then
insert the serialized blob under the sentinel key. -/
def store_index_on_disk (a : ActionKV) (index_key : ByteString) : ActionKV :=
  let a1 := { a with index := idxRemove index_key a.index }
  let index_as_bytes := serializeIndex a1.index
  let a2 := { a1 with index := [] }
  a2.insert index_key index_as_bytes

/-- A two-record log (`"a" ↦ "1"`, `"b" ↦ "2"`) used by the concrete
counterexample scenarios. -/
def ceFile : ByteString := encodeLog [([97], [49]), ([98], [50])]

/-- The engine freshly opened on `ceFile`. -/
def ceS0 : ActionKV := ActionKV.openFile ceFile

/-- After `load()`: cursor at end-of-file, index `a ↦ 0, b ↦ 14`. -/
def ceS1 : ActionKV := ceS0.load.getD ceS0

/-- `insert("c", "3")` directly after `open` on the nonempty file, with no
`load` (and no read of any kind) in between: the file offset is still 0,
so `insert_but_ignore_index` captures 0 as the returned offset although it
appends its record at end-of-file (offset 28). -/
def ceT1 : ActionKV := ceS0.insert [99] [51]

/-! ### Helper lemmas -/

theorem crcStep_lt (c : Nat) : crcStep c < 4294967296 := by
  unfold crcStep
  have h2 : (c * 2) % 4294967296 < 4294967296 := Nat.mod_lt _ (by norm_num)
  split
  · have : (4294967296 : Nat) = 2 ^ 32 := by norm_num
    rw [this] at h2 ⊢
    exact Nat.xor_lt_two_pow h2 (by norm_num)
  · exact h2

theorem crcStepIter_lt {c : Nat} (n : Nat) (h : c < 4294967296) :
    crcStep^[n] c < 4294967296 := by
  induction n generalizing c with
  | zero => simpa using h
  | succ m ih => rw [Function.iterate_succ_apply]; exact ih (crcStep_lt c)

theorem crcByte_lt {c : Nat} (b : Nat) (h : c < 4294967296) :
    crcByte c b < 4294967296 := by
  unfold crcByte
  apply crcStepIter_lt
  have hb : (b % 256) * 16777216 < 4294967296 := by
    have : b % 256 < 256 := Nat.mod_lt _ (by norm_num)
    nlinarith
  have : (4294967296 : Nat) = 2 ^ 32 := by norm_num
  rw [this] at h hb ⊢
  exact Nat.xor_lt_two_pow h hb

theorem crcFold_lt {c : Nat} (l : ByteString) (h : c < 4294967296) :
    l.foldl crcByte c < 4294967296 := by
  induction l generalizing c with
  | nil => simpa using h
  | cons b t ih => rw [List.foldl_cons]; exact ih (crcByte_lt b h)

theorem crc32_lt (data : ByteString) : crc32 data < 4294967296 := by
  unfold crc32
  have h1 : data.foldl crcByte 0 < 4294967296 := crcFold_lt data (by norm_num)
  have : (4294967296 : Nat) = 2 ^ 32 := by norm_num
  rw [this] at h1 ⊢
  exact Nat.xor_lt_two_pow h1 (by norm_num)

theorem readU32_u32le (n : Nat) (rest : ByteString) :
    readU32 (u32le n ++ rest) = some (n % 4294967296, rest) := by
  simp only [u32le, List.cons_append, List.nil_append, readU32,
    Option.some.injEq, Prod.mk.injEq]
  exact ⟨by omega, trivial⟩

theorem encodeFrame_length (key value : ByteString) :
    (encodeFrame key value).length = 12 + (key.length + value.length) := by
  simp [encodeFrame, u32le]
  omega

theorem encodeLog_append (ps qs : List (ByteString × ByteString)) :
    encodeLog (ps ++ qs) = encodeLog ps ++ encodeLog qs := by
  induction ps with
  | nil => simp [encodeLog]
  | cons p rest ih =>
    obtain ⟨k, v⟩ := p
    simp [encodeLog, ih, List.append_assoc]

theorem process_record_frame (key value rest : ByteString)
    (h : key.length + value.length < 4294967296) :
    process_record (encodeFrame key value ++ rest) =
      .ok ⟨key, value⟩ (key.length + value.length) := by
  have e : encodeFrame key value ++ rest =
      u32le (crc32 (key ++ value)) ++ (u32le key.length ++ (u32le value.length
        ++ ((key ++ value) ++ rest))) := by
    simp [encodeFrame, List.append_assoc]
  rw [e]
  simp only [process_record, readU32_u32le]
  rw [Nat.mod_eq_of_lt (crc32_lt _), Nat.mod_eq_of_lt (by omega : key.length < 4294967296),
    Nat.mod_eq_of_lt (by omega : value.length < 4294967296),
    Nat.mod_eq_of_lt h]
  have htake : ((key ++ value) ++ rest).take (key.length + value.length) =
      key ++ value :=
    List.take_left' (by simp)
  rw [htake]
  rw [if_neg (by simp), if_neg (by rw [List.length_append]; omega)]
  rw [List.take_left, List.drop_left]
  simp

theorem readU32_some_length {src : ByteString} {v : Nat} {rest : ByteString}
    (h : readU32 src = some (v, rest)) : src.length = rest.length + 4 := by
  match src with
  | [] => simp [readU32] at h
  | [_] => simp [readU32] at h
  | [_, _] => simp [readU32] at h
  | [_, _, _] => simp [readU32] at h
  | b0 :: b1 :: b2 :: b3 :: t =>
    simp only [readU32, Option.some.injEq, Prod.mk.injEq] at h
    rw [← h.2]
    simp [List.length_cons]

theorem process_record_ok_length {src : ByteString} {kv : KeyValuePair}
    {n : Nat} (h : process_record src = .ok kv n) : 12 + n ≤ src.length := by
  unfold process_record at h
  split at h
  · exact absurd h (by simp)
  next c r1 h1 =>
    split at h
    · exact absurd h (by simp)
    next kl r2 h2 =>
      split at h
      · exact absurd h (by simp)
      next vl r3 h3 =>
        have l1 := readU32_some_length h1
        have l2 := readU32_some_length h2
        have l3 := readU32_some_length h3
        have hdata : (r3.take ((kl + vl) % 4294967296)).length ≤ r3.length := by
          rw [List.length_take]
          exact Nat.min_le_right _ _
        dsimp only at h
        split at h
        · exact absurd h (by simp)
        · split at h
          · exact absurd h (by simp)
          · injection h with hkv hn
            omega

theorem scanLogAux_congr : ∀ (f1 f2 : Nat) (src : ByteString) (pos : Nat),
    src.length < f1 → src.length < f2 →
    scanLogAux f1 src pos = scanLogAux f2 src pos := by
  intro f1
  induction f1 with
  | zero => intro f2 src pos h1 _; omega
  | succ a ih =>
    intro f2 src pos h1 h2
    cases f2 with
    | zero => omega
    | succ b =>
      simp only [scanLogAux]
      cases hrec : process_record src with
      | endOfLog => rfl
      | corruption c st => rfl
      | splitPanic => rfl
      | ok kv dataLen =>
        have hlen := process_record_ok_length hrec
        have hrecur := ih b (src.drop (12 + dataLen)) (pos + 12 + dataLen)
          (by rw [List.length_drop]; omega) (by rw [List.length_drop]; omega)
        dsimp only
        rw [hrecur]

theorem scanLog_unfold (src : ByteString) (pos : Nat) :
    scanLog src pos =
      match process_record src with
      | .endOfLog => .done [] pos
      | .corruption c s => .panicked c s
      | .splitPanic => .splitPanicked
      | .ok kv dataLen =>
        match scanLog (src.drop (12 + dataLen)) (pos + 12 + dataLen) with
        | .done recs fin => .done ((pos, kv) :: recs) fin
        | r => r := by
  show scanLogAux (src.length + 1) src pos = _
  simp only [scanLogAux]
  cases hrec : process_record src with
  | endOfLog => rfl
  | corruption c st => rfl
  | splitPanic => rfl
  | ok kv dataLen =>
    have hlen := process_record_ok_length hrec
    have hcongr := scanLogAux_congr src.length
      ((src.drop (12 + dataLen)).length + 1) (src.drop (12 + dataLen))
      (pos + 12 + dataLen) (by rw [List.length_drop]; omega)
      (Nat.lt_succ_self _)
    dsimp only
    rw [hcongr]
    rfl

theorem scanLog_endOfLog {src : ByteString} (pos : Nat)
    (h : process_record src = .endOfLog) : scanLog src pos = .done [] pos := by
  rw [scanLog_unfold, h]

theorem scanLog_ok {src : ByteString} {kv : KeyValuePair} {dataLen : Nat}
    (pos : Nat) (h : process_record src = .ok kv dataLen) :
    scanLog src pos =
      match scanLog (src.drop (12 + dataLen)) (pos + 12 + dataLen) with
      | .done recs fin => .done ((pos, kv) :: recs) fin
      | r => r := by
  rw [scanLog_unfold, h]

theorem scanLog_encodeLog (pairs : List (ByteString × ByteString)) :
    ∀ pos, (∀ p ∈ pairs, pairOk p) →
      scanLog (encodeLog pairs) pos =
        .done (offsetRecords pairs pos) (pos + (encodeLog pairs).length) := by
  induction pairs with
  | nil =>
    intro pos _
    have h0 : process_record (encodeLog []) = .endOfLog := by
      simp [encodeLog, process_record, readU32]
    rw [scanLog_endOfLog pos h0]
    simp [encodeLog, offsetRecords]
  | cons p rest ih =>
    intro pos hWF
    obtain ⟨k, v⟩ := p
    have hp : k.length + v.length < 4294967296 := hWF (k, v) (by simp)
    have hrec : process_record (encodeLog ((k, v) :: rest)) =
        .ok ⟨k, v⟩ (k.length + v.length) := by
      rw [encodeLog]
      exact process_record_frame k v (encodeLog rest) hp
    rw [scanLog_ok pos hrec]
    have hdrop : (encodeLog ((k, v) :: rest)).drop (12 + (k.length + v.length)) =
        encodeLog rest := by
      rw [encodeLog]
      exact List.drop_left' (encodeFrame_length k v)
    rw [hdrop, ih (pos + 12 + (k.length + v.length))
      (fun q hq => hWF q (List.mem_cons_of_mem _ hq))]
    have harith : pos + 12 + (k.length + v.length) + (encodeLog rest).length =
        pos + (encodeLog ((k, v) :: rest)).length := by
      rw [encodeLog, List.length_append, encodeFrame_length]; omega
    rw [offsetRecords, ← harith]

theorem idxLookup_idxInsert (k' k : ByteString) (v : Nat)
    (ix : List (ByteString × Nat)) :
    idxLookup k (idxInsert k' v ix) =
      if k' = k then some v else idxLookup k ix := by
  induction ix with
  | nil => simp [idxInsert, idxLookup]
  | cons e rest ih =>
    obtain ⟨ke, ve⟩ := e
    by_cases h1 : ke = k'
    · subst h1
      simp only [idxInsert, if_pos rfl]
      by_cases h2 : ke = k <;> simp [idxLookup, h2]
    · simp only [idxInsert, if_neg h1]
      by_cases h2 : ke = k
      · subst h2
        have : ¬ (k' = ke) := fun hc => h1 hc.symm
        simp [idxLookup, this]
      · simp [idxLookup, h2, ih]

theorem idxLookup_foldIdx (recs : List (Nat × KeyValuePair)) :
    ∀ (ix : List (ByteString × Nat)) (k : ByteString),
      idxLookup k (foldIdx recs ix) =
        match lastRecOffset recs k with
        | some o => some o
        | none => idxLookup k ix := by
  induction recs with
  | nil => intro ix k; simp [foldIdx, lastRecOffset]
  | cons r rest ih =>
    intro ix k
    have hstep : foldIdx (r :: rest) ix = foldIdx rest (idxInsert r.2.key r.1 ix) := by
      simp [foldIdx]
    rw [hstep, ih, lastRecOffset]
    cases lastRecOffset rest k with
    | some o => rfl
    | none =>
      rw [idxLookup_idxInsert]
      by_cases hk : r.2.key = k <;> simp [hk]

theorem lastRecOffset_offsetRecords (pairs : List (ByteString × ByteString)) :
    ∀ base k, lastRecOffset (offsetRecords pairs base) k =
      specLastOffset pairs base k := by
  induction pairs with
  | nil => intro base k; simp [offsetRecords, lastRecOffset, specLastOffset]
  | cons p rest ih =>
    intro base k
    obtain ⟨kp, vp⟩ := p
    rw [offsetRecords, lastRecOffset, specLastOffset, ih]

theorem findFold_acc (target : ByteString) (recs : List (Nat × KeyValuePair)) :
    ∀ acc, findFold recs target acc =
      match findFold recs target none with
      | some x => some x
      | none => acc := by
  induction recs with
  | nil => intro acc; simp [findFold]
  | cons r rest ih =>
    intro acc
    have hstep : ∀ a, findFold (r :: rest) target a =
        findFold rest target
          (if r.2.key = target then some (r.1, r.2.value) else a) := by
      intro a; simp [findFold]
    rw [hstep, hstep, ih, ih (if r.2.key = target then some (r.1, r.2.value) else none)]
    by_cases hk : r.2.key = target <;>
      cases findFold rest target none <;> simp [hk]

theorem findFold_offsetRecords (target : ByteString)
    (pairs : List (ByteString × ByteString)) :
    ∀ base, findFold (offsetRecords pairs base) target none =
      specFind pairs base target := by
  induction pairs with
  | nil => intro base; simp [offsetRecords, findFold, specFind]
  | cons p rest ih =>
    intro base
    obtain ⟨kp, vp⟩ := p
    have hstep : findFold (offsetRecords ((kp, vp) :: rest) base) target none =
        findFold (offsetRecords rest (base + 12 + (kp.length + vp.length)))
          target (if kp = target then some (base, vp) else none) := by
      simp [offsetRecords, findFold]
    rw [hstep, findFold_acc, ih, specFind]

theorem specLastOffset_none_iff (k : ByteString)
    (pairs : List (ByteString × ByteString)) :
    ∀ base, (specLastOffset pairs base k = none ↔ k ∉ pairs.map Prod.fst) := by
  induction pairs with
  | nil => intro base; simp [specLastOffset]
  | cons p rest ih =>
    intro base
    obtain ⟨kp, vp⟩ := p
    rw [specLastOffset]
    cases hrest : specLastOffset rest (base + 12 + (kp.length + vp.length)) k with
    | some o =>
      have : k ∈ rest.map Prod.fst := by
        by_contra hc
        rw [← ih (base + 12 + (kp.length + vp.length))] at hc
        rw [hrest] at hc
        exact Option.noConfusion hc
      simp [this]
    | none =>
      have hnotin : k ∉ rest.map Prod.fst := (ih _).mp hrest
      by_cases hk : kp = k
      · subst hk; simp
      · have hk2 : ¬k = kp := fun hc => hk hc.symm
        simp [hk, hk2, hnotin]

theorem specLastOffset_decode (k : ByteString)
    (pairs : List (ByteString × ByteString)) (hWF : ∀ p ∈ pairs, pairOk p) :
    ∀ base off, specLastOffset pairs base k = some off →
      base ≤ off ∧ ∃ v tail, pairOk (k, v) ∧
        (encodeLog pairs).drop (off - base) = encodeFrame k v ++ tail := by
  induction pairs with
  | nil => intro base off h; simp [specLastOffset] at h
  | cons p rest ih =>
    intro base off h
    obtain ⟨kp, vp⟩ := p
    rw [specLastOffset] at h
    cases hrest : specLastOffset rest (base + 12 + (kp.length + vp.length)) k with
    | some o =>
      rw [hrest] at h
      cases h
      obtain ⟨hle, v, tail, hvOk, hdec⟩ :=
        ih (fun q hq => hWF q (List.mem_cons_of_mem _ hq)) _ _ hrest
      refine ⟨by omega, v, tail, hvOk, ?_⟩
      have hsplit : off - base =
          (encodeFrame kp vp).length + (off - (base + 12 + (kp.length + vp.length))) := by
        rw [encodeFrame_length]; omega
      rw [encodeLog, hsplit, List.drop_append]
      exact hdec
    | none =>
      rw [hrest] at h
      by_cases hk : kp = k
      · rw [if_pos hk] at h
        cases h
        subst hk
        refine ⟨le_refl _, vp, encodeLog rest,
          hWF (kp, vp) (by simp), ?_⟩
        simp [encodeLog]
      · rw [if_neg hk] at h
        exact Option.noConfusion h

theorem specLastOffset_append (qs ps : List (ByteString × ByteString)) :
    ∀ base k, specLastOffset (ps ++ qs) base k =
      match specLastOffset qs (base + (encodeLog ps).length) k with
      | some o => some o
      | none => specLastOffset ps base k := by
  induction ps with
  | nil =>
    intro base k
    simp only [List.nil_append, encodeLog, List.length_nil, Nat.add_zero]
    cases specLastOffset qs base k <;> simp [specLastOffset]
  | cons p rest ih =>
    intro base k
    obtain ⟨kp, vp⟩ := p
    rw [List.cons_append, specLastOffset, specLastOffset, ih]
    have harith : base + 12 + (kp.length + vp.length) + (encodeLog rest).length =
        base + (encodeLog ((kp, vp) :: rest)).length := by
      rw [encodeLog, List.length_append, encodeFrame_length]; omega
    rw [harith]
    cases specLastOffset qs (base + (encodeLog ((kp, vp) :: rest)).length) k <;>
      cases specLastOffset rest (base + 12 + (kp.length + vp.length)) k <;>
        simp

theorem specLastOffset_allSame (k : ByteString) (vs : List ByteString) :
    vs ≠ [] → ∀ base,
      specLastOffset (vs.map (fun v => (k, v))) base k =
        some (base +
          (encodeLog (vs.dropLast.map (fun v => (k, v)))).length) := by
  induction vs with
  | nil => intro h; exact absurd rfl h
  | cons v rest ih =>
    intro _ base
    cases hr : rest with
    | nil =>
      simp [specLastOffset, encodeLog]
    | cons v2 t =>
      rw [← hr]
      have hne : rest ≠ [] := by rw [hr]; exact List.cons_ne_nil _ _
      rw [List.map_cons, specLastOffset, ih hne]
      have hdl : (v :: rest).dropLast = v :: rest.dropLast := by
        rw [hr]; simp
      rw [hdl, List.map_cons, encodeLog, List.length_append, encodeFrame_length]
      simp only [Option.some.injEq]
      omega

theorem insert_file (s : ActionKV) (k v : ByteString) :
    (s.insert k v).file = s.file ++ encodeFrame k v := by
  simp [ActionKV.insert, ActionKV.insert_but_ignore_index, encodeFrame,
    List.append_assoc]

theorem insert_cursor (s : ActionKV) (k v : ByteString) :
    (s.insert k v).cursor = (s.insert k v).file.length := by
  simp [ActionKV.insert, ActionKV.insert_but_ignore_index,
    List.length_append]

theorem insert_index (s : ActionKV) (k v : ByteString) :
    (s.insert k v).index = idxInsert k s.cursor s.index := rfl

theorem insert_pos (s : ActionKV) (k v : ByteString) :
    (s.insert_but_ignore_index k v).1 = s.cursor := rfl

theorem insertSeq_spec (k : ByteString) (vs : List ByteString) :
    ∀ s : ActionKV, s.cursor = s.file.length → vs ≠ [] →
      (vs.foldl (fun st v => st.insert k v) s).file =
          s.file ++ encodeLog (vs.map (fun v => (k, v))) ∧
      (vs.foldl (fun st v => st.insert k v) s).cursor =
          (vs.foldl (fun st v => st.insert k v) s).file.length ∧
      idxLookup k (vs.foldl (fun st v => st.insert k v) s).index =
          some (s.file.length +
            (encodeLog (vs.dropLast.map (fun v => (k, v)))).length) ∧
      (vs.foldl (fun st v => st.insert k v) s).file.drop
          (s.file.length +
            (encodeLog (vs.dropLast.map (fun v => (k, v)))).length) =
        encodeFrame k (vs.getLast?.getD []) := by
  induction vs with
  | nil => intro s hcur hne; exact absurd rfl hne
  | cons v rest ih =>
    intro s hcur _
    by_cases hrest : rest = []
    · subst hrest
      simp only [List.foldl_cons, List.foldl_nil, List.map_cons,
        List.map_nil, List.dropLast_single, encodeLog,
        List.getLast?_singleton, Option.getD_some, List.length_nil,
        Nat.add_zero]
      refine ⟨?_, insert_cursor s k v, ?_, ?_⟩
      · rw [insert_file]; simp [encodeLog]
      · rw [insert_index, idxLookup_idxInsert, if_pos rfl, hcur]
      · rw [insert_file]; exact List.drop_left _ _
    · obtain ⟨v2, t, rfl⟩ := List.exists_cons_of_ne_nil hrest
      rw [List.foldl_cons]
      have h1 : (s.insert k v).cursor = (s.insert k v).file.length :=
        insert_cursor s k v
      obtain ⟨hf, hc, hl, hd⟩ :=
        ih (s.insert k v) h1 (List.cons_ne_nil _ _)
      have hflen : (s.insert k v).file.length =
          s.file.length + (encodeFrame k v).length := by
        rw [insert_file, List.length_append]
      refine ⟨?_, hc, ?_, ?_⟩
      · rw [hf, insert_file]
        simp [encodeLog, List.append_assoc]
      · rw [hl, hflen, List.dropLast_cons₂, List.map_cons, encodeLog,
          List.length_append]
        simp only [Option.some.injEq]
        omega
      · rw [List.getLast?_cons_cons, List.dropLast_cons₂, List.map_cons,
          encodeLog, List.length_append]
        rw [hflen] at hd
        have harith : s.file.length +
            ((encodeFrame k v).length +
              (encodeLog ((v2 :: t).dropLast.map (fun v => (k, v)))).length) =
            s.file.length + (encodeFrame k v).length +
              (encodeLog ((v2 :: t).dropLast.map (fun v => (k, v)))).length := by
          omega
        rw [harith]
        exact hd

theorem readU64_u64le (n : Nat) (rest : ByteString)
    (h : n < 18446744073709551616) :
    readU64 (u64le n ++ rest) = some (n, rest) := by
  simp only [u64le, List.cons_append, List.nil_append, readU64,
    Option.some.injEq, Prod.mk.injEq]
  exact ⟨by omega, trivial⟩

theorem readEntry_serializeEntry (e : ByteString × Nat) (rest : ByteString)
    (hk : e.1.length < 18446744073709551616)
    (hv : e.2 < 18446744073709551616) :
    readEntry (serializeEntry e ++ rest) = some (e, rest) := by
  obtain ⟨key, off⟩ := e
  have harr : serializeEntry (key, off) ++ rest =
      u64le key.length ++ (key ++ u64le off ++ rest) := by
    simp [serializeEntry, List.append_assoc]
  have hlen : key.length ≤ (key ++ u64le off ++ rest).length := by
    simp [List.length_append]
  have hdrop : (key ++ u64le off ++ rest).drop key.length =
      u64le off ++ rest := by
    rw [List.append_assoc]
    exact List.drop_left _ _
  have htake : (key ++ u64le off ++ rest).take key.length = key := by
    rw [List.append_assoc]
    exact List.take_left _ _
  rw [harr, readEntry, readU64_u64le key.length _ hk]
  simp [hlen, hdrop, htake, readU64_u64le off rest hv]

theorem readEntries_serializeEntries (ix : List (ByteString × Nat))
    (hWF : ∀ e ∈ ix, e.1.length < 18446744073709551616 ∧
      e.2 < 18446744073709551616) :
    ∀ rest, readEntries ix.length (serializeEntries ix ++ rest) = some ix := by
  induction ix with
  | nil => intro rest; simp [readEntries]
  | cons e tail ih =>
    intro rest
    have he := hWF e (by simp)
    have harr : serializeEntries (e :: tail) ++ rest =
        serializeEntry e ++ (serializeEntries tail ++ rest) := by
      simp [serializeEntries, List.append_assoc]
    rw [List.length_cons, readEntries, harr,
      readEntry_serializeEntry e _ he.1 he.2]
    simp [ih (fun q hq => hWF q (List.mem_cons_of_mem _ hq)) rest]

theorem deserializeIndex_serializeIndex (ix : List (ByteString × Nat))
    (hWF : idxWF ix) : deserializeIndex (serializeIndex ix) = some ix := by
  obtain ⟨hlen, hent⟩ := hWF
  rw [serializeIndex, deserializeIndex, readU64_u64le _ _ hlen]
  have hre := readEntries_serializeEntries ix hent []
  rw [List.append_nil] at hre
  simp [hre]

theorem scanLog_corruption {src : ByteString} {c st : Nat} (pos : Nat)
    (h : process_record src = .corruption c st) :
    scanLog src pos = .panicked c st := by
  rw [scanLog_unfold, h]

theorem process_record_short (src : ByteString) (h : src.length < 12) :
    process_record src = .endOfLog := by
  match src with
  | [] | [_] | [_, _] | [_, _, _] | [_, _, _, _] | [_, _, _, _, _]
  | [_, _, _, _, _, _] | [_, _, _, _, _, _, _] | [_, _, _, _, _, _, _, _]
  | [_, _, _, _, _, _, _, _, _] | [_, _, _, _, _, _, _, _, _, _]
  | [_, _, _, _, _, _, _, _, _, _, _] => rfl
  | _ :: _ :: _ :: _ :: _ :: _ :: _ :: _ :: _ :: _ :: _ :: _ :: _ =>
    simp only [List.length_cons] at h
    omega

theorem take_u32le_append (w m : Nat) (X : ByteString) :
    (u32le w ++ X).take (4 + m) = u32le w ++ X.take m := by
  have h4 : (4 : Nat) = (u32le w).length := rfl
  rw [h4, List.take_append]

theorem process_record_frame_exact (key value : ByteString)
    (h : key.length + value.length < 4294967296) :
    process_record (encodeFrame key value) =
      .ok ⟨key, value⟩ (key.length + value.length) := by
  have hp := process_record_frame key value [] h
  rwa [List.append_nil] at hp

theorem load_clean (s : ActionKV) (pairs : List (ByteString × ByteString))
    (hcur : s.cursor = 0) (hfile : s.file = encodeLog pairs)
    (hWF : ∀ p ∈ pairs, pairOk p) :
    s.load = .ok { s with index := foldIdx (offsetRecords pairs 0) s.index,
                          cursor := (encodeLog pairs).length } := by
  have hscan : scanLog (s.file.drop s.cursor) s.cursor =
      .done (offsetRecords pairs 0) (0 + (encodeLog pairs).length) := by
    rw [hcur, hfile, List.drop_zero]
    exact scanLog_encodeLog pairs 0 hWF
  simp [ActionKV.load, hscan]

theorem idxLookup_load_empty (pairs : List (ByteString × ByteString))
    (k : ByteString) :
    idxLookup k (foldIdx (offsetRecords pairs 0) []) =
      specLastOffset pairs 0 k := by
  rw [idxLookup_foldIdx, lastRecOffset_offsetRecords]
  cases specLastOffset pairs 0 k <;> simp [idxLookup]

theorem insert_get (s : ActionKV) (key value : ByteString)
    (hcur : s.cursor = s.file.length)
    (hkv : key.length + value.length < 4294967296) :
    (s.insert key value).get key =
      .ok (some value,
        { s.insert key value with
            cursor := min (s.file.length + 8192)
              (s.insert key value).file.length }) := by
  have hidx : idxLookup key (s.insert key value).index = some s.file.length := by
    rw [insert_index, idxLookup_idxInsert, if_pos rfl, hcur]
  have hproc : process_record ((s.insert key value).file.drop s.file.length) =
      .ok ⟨key, value⟩ (key.length + value.length) := by
    rw [insert_file, List.drop_left]
    exact process_record_frame_exact key value hkv
  simp only [ActionKV.get, hidx, ActionKV.get_at, hproc]

/-! ### Claim theorems -/

/-- C7: for all key and value, the frame written by an insert is exactly
`crc32(key‖value) (4B LE) | key_len (4B LE) | value_len (4B LE) |
key_bytes | value_bytes`, with the checksum over the concatenated payload
only (not the length fields), and decoding such a frame recovers the same
(key, value) pair. -/
theorem C7_frame_format (s : ActionKV) (key value rest : ByteString)
    (h : key.length + value.length < 4294967296) :
    (s.insert_but_ignore_index key value).2.file =
      s.file ++ (u32le (crc32 (key ++ value)) ++ u32le key.length ++
        u32le value.length ++ key ++ value) ∧
    encodeFrame key value =
      u32le (crc32 (key ++ value)) ++ u32le key.length ++
        u32le value.length ++ key ++ value ∧
    process_record (encodeFrame key value ++ rest) =
      .ok ⟨key, value⟩ (key.length + value.length) := by
  refine ⟨?_, rfl, process_record_frame key value rest h⟩
  simp [ActionKV.insert_but_ignore_index, List.append_assoc]

/-- Witness for C7 at key = "hi", value = "!", one trailing byte. -/
theorem C7_frame_format_witness :
    ((ActionKV.openFile []).insert_but_ignore_index [104, 105] [33]).2.file =
      [] ++ (u32le (crc32 (([104, 105] : ByteString) ++ [33])) ++
        u32le (List.length ([104, 105] : ByteString)) ++
        u32le (List.length ([33] : ByteString)) ++ [104, 105] ++ [33]) ∧
    encodeFrame [104, 105] [33] =
      u32le (crc32 (([104, 105] : ByteString) ++ [33])) ++
        u32le (List.length ([104, 105] : ByteString)) ++
        u32le (List.length ([33] : ByteString)) ++ [104, 105] ++ [33] ∧
    process_record (encodeFrame [104, 105] [33] ++ [7]) =
      .ok ⟨[104, 105], [33]⟩
        (List.length ([104, 105] : ByteString) +
          List.length ([33] : ByteString)) :=
  C7_frame_format (ActionKV.openFile []) [104, 105] [33] [7] (by decide)

/-- C9: a frame whose stored checksum differs from the CRC-32 recomputed
over the key/value bytes read decodes to the data-corruption panic (the
process-terminating outcome, carrying the computed and the stored
checksum), and `load` on such a log propagates that panic rather than
returning a recoverable error. -/
theorem C9_corruption_panic (c : Nat) (key value rest : ByteString)
    (hc : c < 4294967296) (hkv : key.length + value.length < 4294967296)
    (hne : c ≠ crc32 (key ++ value)) :
    process_record (u32le c ++ u32le key.length ++ u32le value.length ++
        key ++ value ++ rest) =
      .corruption (crc32 (key ++ value)) c ∧
    (ActionKV.openFile (u32le c ++ u32le key.length ++ u32le value.length ++
        key ++ value ++ rest)).load = .panicked (crc32 (key ++ value)) c := by
  have e : u32le c ++ u32le key.length ++ u32le value.length ++
      key ++ value ++ rest =
      u32le c ++ (u32le key.length ++ (u32le value.length ++
        ((key ++ value) ++ rest))) := by
    simp [List.append_assoc]
  have hproc : process_record (u32le c ++ u32le key.length ++
      u32le value.length ++ key ++ value ++ rest) =
      .corruption (crc32 (key ++ value)) c := by
    rw [e]
    simp only [process_record, readU32_u32le]
    rw [Nat.mod_eq_of_lt hc,
      Nat.mod_eq_of_lt (by omega : key.length < 4294967296),
      Nat.mod_eq_of_lt (by omega : value.length < 4294967296),
      Nat.mod_eq_of_lt hkv]
    have htake : ((key ++ value) ++ rest).take (key.length + value.length) =
        key ++ value :=
      List.take_left' (by simp)
    rw [htake, if_pos (Ne.symm hne)]
  refine ⟨hproc, ?_⟩
  have hscan : scanLog (u32le c ++ (u32le key.length ++ (u32le value.length ++
      (key ++ (value ++ rest))))) 0 = .panicked (crc32 (key ++ value)) c := by
    apply scanLog_corruption
    have e2 : u32le c ++ (u32le key.length ++ (u32le value.length ++
        (key ++ (value ++ rest)))) =
        u32le c ++ u32le key.length ++ u32le value.length ++
          key ++ value ++ rest := by
      simp [List.append_assoc]
    rw [e2]
    exact hproc
  simp [ActionKV.load, ActionKV.openFile, hscan]

/-- Witness for C9: stored checksum 0 over payload "a"/"1" (whose CRC is
nonzero). -/
theorem C9_corruption_panic_witness :
    process_record (u32le 0 ++ u32le (List.length ([97] : ByteString)) ++
        u32le (List.length ([49] : ByteString)) ++ [97] ++ [49] ++ []) =
      .corruption (crc32 (([97] : ByteString) ++ [49])) 0 ∧
    (ActionKV.openFile (u32le 0 ++ u32le (List.length ([97] : ByteString)) ++
        u32le (List.length ([49] : ByteString)) ++ [97] ++ [49] ++ [])).load =
      .panicked (crc32 (([97] : ByteString) ++ [49])) 0 :=
  C9_corruption_panic 0 [97] [49] [] (by decide) (by decide) (by decide)

/-- C8 (amended): a record truncated within the twelve header bytes decodes
as EndOfLog (clean scan termination), but a record truncated inside the
key/value data region does NOT: `take(data_len).read_to_end` succeeds with
the short data, and the checksum recomputed over it mismatches the stored
one (whenever the truncated payload's CRC differs), so decoding — and hence
`load`/`find` — signals the data-corruption panic instead. -/
theorem C8_truncation (key value : ByteString) (n : Nat)
    (hkv : key.length + value.length < 4294967296) :
    (n < 12 → process_record ((encodeFrame key value).take n) = .endOfLog) ∧
    (12 ≤ n → n < 12 + (key.length + value.length) →
      crc32 ((key ++ value).take (n - 12)) ≠ crc32 (key ++ value) →
      process_record ((encodeFrame key value).take n) =
        .corruption (crc32 ((key ++ value).take (n - 12)))
          (crc32 (key ++ value))) := by
  constructor
  · intro hn
    apply process_record_short
    rw [List.length_take]
    have hmin := Nat.min_le_left n (encodeFrame key value).length
    omega
  · intro h12 hlt hneq
    obtain ⟨m, rfl⟩ : ∃ m, n = 12 + m := ⟨n - 12, by omega⟩
    have hm : m < key.length + value.length := by omega
    have e : encodeFrame key value =
        u32le (crc32 (key ++ value)) ++ (u32le key.length ++
          (u32le value.length ++ (key ++ value))) := by
      simp [encodeFrame, List.append_assoc]
    have h1 : (12 : Nat) + m = 4 + (4 + (4 + m)) := by omega
    have htake : (encodeFrame key value).take (12 + m) =
        u32le (crc32 (key ++ value)) ++ (u32le key.length ++
          (u32le value.length ++ (key ++ value).take m)) := by
      rw [e, h1, take_u32le_append, take_u32le_append, take_u32le_append]
    rw [htake]
    simp only [process_record, readU32_u32le]
    rw [Nat.mod_eq_of_lt (crc32_lt _),
      Nat.mod_eq_of_lt (by omega : key.length < 4294967296),
      Nat.mod_eq_of_lt (by omega : value.length < 4294967296),
      Nat.mod_eq_of_lt hkv]
    have htt : ((key ++ value).take m).take (key.length + value.length) =
        (key ++ value).take m := by
      rw [List.take_take, Nat.min_eq_right (le_of_lt hm)]
    rw [htt]
    have hfix : 12 + m - 12 = m := by omega
    rw [hfix] at hneq ⊢
    rw [if_pos hneq]

/-- Witness for C8: the frame for ("a","1") truncated at 7 bytes (header
region) decodes as EndOfLog; truncated at 13 bytes (one data byte short)
it decodes as DataCorruption. -/
theorem C8_truncation_witness :
    process_record ((encodeFrame [97] [49]).take 7) = .endOfLog ∧
    process_record ((encodeFrame [97] [49]).take 13) =
      .corruption (crc32 ((([97] : ByteString) ++ [49]).take (13 - 12)))
        (crc32 (([97] : ByteString) ++ [49])) :=
  ⟨(C8_truncation [97] [49] 7 (by decide)).1 (by decide),
   (C8_truncation [97] [49] 13 (by decide)).2 (by decide) (by decide)
     (by decide)⟩

/-- Counterexample to C8 as stated: the frame for ("a","1") truncated to
13 bytes — mid-record, inside the data region — is decoded by
`process_record` as a DataCorruption panic, and `load()` on such a file
panics rather than treating the truncation as normal scan termination. -/
theorem C8_counterexample :
    process_record ((encodeFrame [97] [49]).take 13) =
      .corruption (crc32 [97]) (crc32 [97, 49]) ∧
    crc32 [97] ≠ crc32 [97, 49] ∧
    (ActionKV.openFile ((encodeFrame [97] [49]).take 13)).load =
      .panicked (crc32 [97]) (crc32 [97, 49]) := by decide

/-- C1 (amended): index offsets address structurally valid framed records,
and an insert returns/records the offset of its newly appended record,
PROVIDED the cursor is at end-of-file when the insert runs (true after
load, find, or a previous insert, and after open on an empty file — but
not after open on a nonempty file before any read, where the offset is
still 0, because `insert_but_ignore_index` returns the pre-write cursor
position, not the end-of-file position it writes at).  Part one: such an
insert returns the old file length, and its record decodes there.  Part
two: after `load` of a clean log into a fresh engine, every offset in the
index addresses the start of a structurally valid framed record whose key
is the indexed key. -/
theorem C1_index_offsets_valid (s : ActionKV) (key value : ByteString)
    (pairs : List (ByteString × ByteString))
    (hcur : s.cursor = s.file.length)
    (hkv : key.length + value.length < 4294967296)
    (hWF : ∀ p ∈ pairs, pairOk p) :
    ((s.insert_but_ignore_index key value).1 = s.file.length ∧
      idxLookup key (s.insert key value).index = some s.file.length ∧
      process_record ((s.insert key value).file.drop s.file.length) =
        .ok ⟨key, value⟩ (key.length + value.length)) ∧
    (∀ t k off, (ActionKV.openFile (encodeLog pairs)).load = .ok t →
      idxLookup k t.index = some off →
      ∃ kv n, process_record (t.file.drop off) = .ok kv n ∧ kv.key = k) := by
  constructor
  · refine ⟨by rw [insert_pos, hcur], ?_, ?_⟩
    · rw [insert_index, idxLookup_idxInsert, if_pos rfl, hcur]
    · rw [insert_file, List.drop_left]
      exact process_record_frame_exact key value hkv
  · intro t k off hload hlook
    rw [load_clean (ActionKV.openFile (encodeLog pairs)) pairs rfl rfl hWF]
      at hload
    injection hload with ht
    subst ht
    simp only [ActionKV.openFile] at hlook
    rw [idxLookup_load_empty] at hlook
    obtain ⟨hle, v, tail, hvOk, hdec⟩ :=
      specLastOffset_decode k pairs hWF 0 off hlook
    rw [Nat.sub_zero] at hdec
    refine ⟨⟨k, v⟩, k.length + v.length, ?_, rfl⟩
    simp only [ActionKV.openFile]
    rw [hdec]
    exact process_record_frame k v tail hvOk

/-- Witness for C1 at a one-record log and a fresh insert. -/
theorem C1_index_offsets_valid_witness :
    (((ActionKV.openFile []).insert_but_ignore_index [97] [49]).1 =
        List.length (ActionKV.openFile []).file ∧
      idxLookup [97] ((ActionKV.openFile []).insert [97] [49]).index =
        some (List.length (ActionKV.openFile []).file) ∧
      process_record (((ActionKV.openFile []).insert [97] [49]).file.drop
          (List.length (ActionKV.openFile []).file)) =
        .ok ⟨[97], [49]⟩
          (List.length ([97] : ByteString) +
            List.length ([49] : ByteString))) ∧
    (∀ t k off,
      (ActionKV.openFile (encodeLog [([97], [49]), ([98], [50])])).load =
        .ok t →
      idxLookup k t.index = some off →
      ∃ kv n, process_record (t.file.drop off) = .ok kv n ∧ kv.key = k) :=
  C1_index_offsets_valid (ActionKV.openFile []) [97] [49]
    [([97], [49]), ([98], [50])] rfl (by decide) (by decide)

/-- Counterexample to C1 as stated: in the reachable sequence
open → insert("c","3") on the existing two-record file — no read of any
kind intervenes, so the file offset is still exactly 0 when the insert
runs — the insert returns and records offset 0 in the index, while its
record is appended at offset 28 of the 42-byte file; the offset stored for
"c" addresses the record of "a", not the newly appended record. -/
theorem C1_counterexample :
    (ceS0.insert_but_ignore_index [99] [51]).1 = 0 ∧
    idxLookup [99] ceT1.index = some 0 ∧
    ceT1.file.length = 42 ∧
    ceT1.file.drop 28 = encodeFrame [99] [51] ∧
    process_record (ceT1.file.drop 0) = .ok ⟨[97], [49]⟩ 2 := by decide

/-- C2 (amended): insert(key, value) then get(key) returns Some(value),
byte for byte, PROVIDED the cursor is at end-of-file when the insert
runs. -/
theorem C2_insert_get_roundtrip (s : ActionKV) (key value : ByteString)
    (hcur : s.cursor = s.file.length)
    (hkv : key.length + value.length < 4294967296) :
    ∃ s', (s.insert key value).get key = .ok (some value, s') :=
  ⟨_, insert_get s key value hcur hkv⟩

/-- Witness for C2 on a fresh engine. -/
theorem C2_insert_get_roundtrip_witness :
    ∃ s', ((ActionKV.openFile []).insert [5, 6] [7]).get [5, 6] =
      .ok (some [7], s') :=
  C2_insert_get_roundtrip (ActionKV.openFile []) [5, 6] [7] rfl (by decide)

/-- Counterexample to C2 as stated: on the reachable state `ceS0` (just
opened on the two-record file, offset 0, no load), insert("c","3") then
get("c") returns Some("1") — the value of the record of "a" at the wrongly
recorded offset 0 — not the inserted "3".  (The post-get cursor is the
read-ahead position min(0 + 8192, 42) = 42.) -/
theorem C2_counterexample :
    ceT1.get [99] = .ok (some [49], { ceT1 with cursor := 42 }) ∧
    ([49] : ByteString) ≠ [51] := by decide

/-- C3 (amended): `find` performs no seek to offset 0 — it scans forward
from the CURRENT cursor position to end-of-file; over the region from the
cursor (here a clean sequence of frames) it returns exactly the
specification-level last matching record of that region, with the cursor
left at end-of-log. -/
theorem C3_find_scans_from_cursor (s : ActionKV) (target : ByteString)
    (pairs : List (ByteString × ByteString))
    (hdrop : s.file.drop s.cursor = encodeLog pairs)
    (hWF : ∀ p ∈ pairs, pairOk p) :
    s.find target = .ok (specFind pairs s.cursor target,
      { s with cursor := s.cursor + (encodeLog pairs).length }) := by
  have hscan : scanLog (s.file.drop s.cursor) s.cursor =
      .done (offsetRecords pairs s.cursor)
        (s.cursor + (encodeLog pairs).length) := by
    rw [hdrop]
    exact scanLog_encodeLog pairs s.cursor hWF
  simp only [ActionKV.find, hscan]
  rw [findFold_offsetRecords]

/-- Witness for C3: a two-record log scanned from offset 0 finds the last
record for the key. -/
theorem C3_find_scans_from_cursor_witness :
    (ActionKV.openFile
        (encodeLog [([97], [49]), ([97], [50])])).find [97] =
      .ok (specFind [([97], [49]), ([97], [50])]
          (ActionKV.openFile
            (encodeLog [([97], [49]), ([97], [50])])).cursor [97],
        { ActionKV.openFile (encodeLog [([97], [49]), ([97], [50])]) with
            cursor := (ActionKV.openFile
                (encodeLog [([97], [49]), ([97], [50])])).cursor +
              (encodeLog [([97], [49]), ([97], [50])]).length }) :=
  C3_find_scans_from_cursor
    (ActionKV.openFile (encodeLog [([97], [49]), ([97], [50])])) [97]
    [([97], [49]), ([97], [50])] rfl (by decide)

/-- Counterexample to C3 as stated: after `load` the cursor sits at
end-of-file, and `find("a")` on that state returns `none` even though the
log's first record has key "a" — `find` did not scan the entire log from
offset 0; the same call on the freshly opened state (cursor 0) does return
the record, showing the result depends on the cursor. -/
theorem C3_counterexample :
    ceS1.file = encodeLog [([97], [49]), ([98], [50])] ∧
    ceS1.find [97] = .ok (none, ceS1) ∧
    ceS0.find [97] = .ok (some (0, [49]), { ceS0 with cursor := 28 }) := by
  decide

/-- C4 (amended): `load()` does NOT reset the in-memory index — it merges
the scanned records into whatever index is already present, scanning from
the current cursor.  When it starts from a fresh engine (empty index,
cursor 0) on a clean log, the resulting index is exactly the
specification-level mapping: every key maps to the offset of its last
record, and a key is absent from the index iff it occurs nowhere in the
log. -/
theorem C4_load_fresh_exact (s : ActionKV)
    (pairs : List (ByteString × ByteString))
    (hidx : s.index = []) (hcur : s.cursor = 0)
    (hfile : s.file = encodeLog pairs)
    (hWF : ∀ p ∈ pairs, pairOk p) :
    ∃ t, s.load = .ok t ∧
      (∀ k, idxLookup k t.index = specLastOffset pairs 0 k) ∧
      (∀ k, idxLookup k t.index = none ↔ k ∉ pairs.map Prod.fst) := by
  refine ⟨_, load_clean s pairs hcur hfile hWF, ?_, ?_⟩ <;> intro k <;>
    simp only [hidx]
  · exact idxLookup_load_empty pairs k
  · rw [idxLookup_load_empty pairs k]
    exact specLastOffset_none_iff k pairs 0

/-- Witness for C4 on a fresh engine over a two-record log with a
duplicated key. -/
theorem C4_load_fresh_exact_witness :
    ∃ t, (ActionKV.openFile
        (encodeLog [([97], [49]), ([97], [50])])).load = .ok t ∧
      (∀ k, idxLookup k t.index =
        specLastOffset [([97], [49]), ([97], [50])] 0 k) ∧
      (∀ k, idxLookup k t.index = none ↔
        k ∉ ([([97], [49]), ([97], [50])].map Prod.fst :
          List ByteString)) :=
  C4_load_fresh_exact
    (ActionKV.openFile (encodeLog [([97], [49]), ([97], [50])]))
    [([97], [49]), ([97], [50])] rfl rfl rfl (by decide)

/-- Counterexample to C4 as stated: on the reachable state `ceT1` (open on
the two-record file, then insert("c","3") with no load: its index wrongly
maps "c" to 0 thanks to the C1 bug, and the write left the file offset at
the new end-of-file, 42), `load()` returns the state unchanged — the index
is not reset before scanning and the cursor is not rewound, the scan sees
nothing.  Afterwards the index still consists of the single wrong entry
"c" ↦ 0: the log keys "a" and "b" are absent, and 0 is the offset of the
record of "a", not of the last "c" record at offset 28 — so the index does
not contain exactly the log's keys at their last-record offsets. -/
theorem C4_counterexample :
    ceT1.load = .ok ceT1 ∧
    ceT1.index = [([99], 0)] ∧
    idxLookup [97] ceT1.index = none ∧
    process_record (ceT1.file.drop 0) = .ok ⟨[97], [49]⟩ 2 ∧
    process_record (ceT1.file.drop 28) = .ok ⟨[99], [51]⟩ 2 ∧
    ceT1.file.length = 42 := by decide

/-- C6 (amended): `delete(k)` is definitionally `insert(k, empty_value)`;
afterwards k remains present in the index and — PROVIDED the cursor is at
end-of-file when the delete runs (the recorded offset then addresses the
tombstone) — the index points at the tombstone record appended at the old
end-of-file and `get(k)` returns Some of the empty byte string
(present-but-empty), not None. -/
theorem C6_tombstone (s : ActionKV) (k : ByteString)
    (hcur : s.cursor = s.file.length)
    (hk : k.length < 4294967296) :
    s.delete k = s.insert k [] ∧
    idxLookup k (s.delete k).index = some s.file.length ∧
    ∃ s', (s.delete k).get k = .ok (some [], s') := by
  refine ⟨rfl, ?_, ?_⟩
  · show idxLookup k (s.insert k []).index = some s.file.length
    rw [insert_index, idxLookup_idxInsert, if_pos rfl, hcur]
  · exact ⟨_, insert_get s k [] hcur (by simpa using hk)⟩

/-- Witness for C6 on a fresh engine and key `[9]`. -/
theorem C6_tombstone_witness :
    (ActionKV.openFile []).delete [9] =
      (ActionKV.openFile []).insert [9] [] ∧
    idxLookup [9] ((ActionKV.openFile []).delete [9]).index =
      some (List.length (ActionKV.openFile []).file) ∧
    ∃ s', ((ActionKV.openFile []).delete [9]).get [9] =
      .ok (some [], s') :=
  C6_tombstone (ActionKV.openFile []) [9] rfl (by decide)

/-- C10: after `store_index_on_disk(a, index_key)` (called with the cursor
at end-of-file, as at its call sites right after an insert/update), the
in-memory index holds exactly one entry — the sentinel key mapped to the
offset of the newly appended snapshot record — every application-key entry
having been discarded from it, while the appended record's value is the
serialized form of those discarded entries (minus the sentinel key), from
which they can be recovered by deserialization. -/
theorem C10_store_index_on_disk (a : ActionKV) (index_key : ByteString)
    (hcur : a.cursor = a.file.length)
    (hWF : idxWF (idxRemove index_key a.index)) :
    (store_index_on_disk a index_key).index =
      [(index_key, a.file.length)] ∧
    (store_index_on_disk a index_key).file =
      a.file ++ encodeFrame index_key
        (serializeIndex (idxRemove index_key a.index)) ∧
    deserializeIndex (serializeIndex (idxRemove index_key a.index)) =
      some (idxRemove index_key a.index) := by
  refine ⟨?_, ?_, deserializeIndex_serializeIndex _ hWF⟩
  · simp [store_index_on_disk, insert_index, idxInsert, hcur]
  · simp [store_index_on_disk, insert_file]

/-- Witness for C10 on an engine holding one application entry and a stale
sentinel entry. -/
theorem C10_store_index_on_disk_witness :
    (store_index_on_disk (ActionKV.mk [] 0 [([97], 5), ([43], 9)])
        [43]).index =
      [([43], List.length (ActionKV.mk [] 0
        [([97], 5), ([43], 9)]).file)] ∧
    (store_index_on_disk (ActionKV.mk [] 0 [([97], 5), ([43], 9)])
        [43]).file =
      (ActionKV.mk [] 0 [([97], 5), ([43], 9)]).file ++
        encodeFrame [43] (serializeIndex (idxRemove [43]
          (ActionKV.mk [] 0 [([97], 5), ([43], 9)]).index)) ∧
    deserializeIndex (serializeIndex (idxRemove [43]
        (ActionKV.mk [] 0 [([97], 5), ([43], 9)]).index)) =
      some (idxRemove [43]
        (ActionKV.mk [] 0 [([97], 5), ([43], 9)]).index) :=
  C10_store_index_on_disk (ActionKV.mk [] 0 [([97], 5), ([43], 9)]) [43]
    rfl (by decide)

/-- C5: last-write-wins.  From a loaded engine (cursor at end-of-file,
file a clean log), a nonempty sequence of `insert`/`update` calls for key
k (update IS insert, `lib.rs` 150-152) leaves `get(k)` returning exactly
the most recently written value; and reopening the resulting file and
rerunning the scan-based `load()` yields an index whose offset for k
equals the very offset the in-memory index holds for k — the offset of
that most recent record. -/
theorem C5_last_write_wins (s : ActionKV)
    (pairs : List (ByteString × ByteString)) (k : ByteString)
    (vs : List ByteString)
    (hcur : s.cursor = s.file.length)
    (hfile : s.file = encodeLog pairs)
    (hWFp : ∀ p ∈ pairs, pairOk p)
    (hWFv : ∀ v ∈ vs, pairOk (k, v))
    (hne : vs ≠ []) :
    ∃ off s' t,
      idxLookup k (vs.foldl (fun st v => st.insert k v) s).index =
        some off ∧
      (vs.foldl (fun st v => st.insert k v) s).get k =
        .ok (some (vs.getLast?.getD []), s') ∧
      (ActionKV.openFile
          (vs.foldl (fun st v => st.insert k v) s).file).load = .ok t ∧
      idxLookup k t.index = some off := by
  obtain ⟨hf, hc, hl, hd⟩ := insertSeq_spec k vs s hcur hne
  have hlast_mem : vs.getLast?.getD [] ∈ vs := by
    rw [List.getLast?_eq_getLast vs hne, Option.getD_some]
    exact List.getLast_mem hne
  have hvlast : pairOk (k, vs.getLast?.getD []) := hWFv _ hlast_mem
  have hproc : process_record
      ((vs.foldl (fun st v => st.insert k v) s).file.drop
        (s.file.length +
          (encodeLog (vs.dropLast.map (fun v => (k, v)))).length)) =
      .ok ⟨k, vs.getLast?.getD []⟩
        (k.length + (vs.getLast?.getD []).length) := by
    rw [hd]
    exact process_record_frame_exact _ _ hvlast
  have hget : (vs.foldl (fun st v => st.insert k v) s).get k =
      .ok (some (vs.getLast?.getD []),
        { vs.foldl (fun st v => st.insert k v) s with
            cursor := min
              (s.file.length +
                (encodeLog (vs.dropLast.map (fun v => (k, v)))).length +
                8192)
              (vs.foldl (fun st v => st.insert k v) s).file.length }) := by
    simp only [ActionKV.get, hl, ActionKV.get_at, hproc]
  have hWFall : ∀ p ∈ pairs ++ vs.map (fun v => (k, v)), pairOk p := by
    intro p hp
    rcases List.mem_append.mp hp with h1 | h2
    · exact hWFp p h1
    · obtain ⟨v, hv, rfl⟩ := List.mem_map.mp h2
      exact hWFv v hv
  have hfileN : (ActionKV.openFile
      (vs.foldl (fun st v => st.insert k v) s).file).file =
      encodeLog (pairs ++ vs.map (fun v => (k, v))) := by
    show (vs.foldl (fun st v => st.insert k v) s).file = _
    rw [hf, hfile, encodeLog_append]
  have hload := load_clean
    (ActionKV.openFile (vs.foldl (fun st v => st.insert k v) s).file)
    (pairs ++ vs.map (fun v => (k, v))) rfl hfileN hWFall
  refine ⟨_, _, _, hl, hget, hload, ?_⟩
  simp only [ActionKV.openFile]
  rw [idxLookup_load_empty, specLastOffset_append
    (vs.map (fun v => (k, v))) pairs 0 k]
  simp only [Nat.zero_add]
  rw [specLastOffset_allSame k vs hne]
  dsimp only
  rw [hfile]

/-- Witness for C5: one pre-existing record for "a", then two inserts for
"a" with values "2" and "3". -/
theorem C5_last_write_wins_witness :
    ∃ off s' t,
      idxLookup [97]
        (([[50], [51]] : List ByteString).foldl
          (fun st v => st.insert [97] v)
          (ActionKV.mk (encodeLog [([97], [49])]) 14 [([97], 0)])).index =
        some off ∧
      (([[50], [51]] : List ByteString).foldl
          (fun st v => st.insert [97] v)
          (ActionKV.mk (encodeLog [([97], [49])]) 14 [([97], 0)])).get
          [97] =
        .ok (some (([[50], [51]] : List ByteString).getLast?.getD []),
          s') ∧
      (ActionKV.openFile
          (([[50], [51]] : List ByteString).foldl
            (fun st v => st.insert [97] v)
            (ActionKV.mk (encodeLog [([97], [49])]) 14
              [([97], 0)])).file).load = .ok t ∧
      idxLookup [97] t.index = some off :=
  C5_last_write_wins
    (ActionKV.mk (encodeLog [([97], [49])]) 14 [([97], 0)])
    [([97], [49])] [97] [[50], [51]] (by decide) rfl (by decide)
    (by decide) (by decide)

/-- Counterexample to C6 as stated: on the reachable state `ceS0` (just
opened on the two-record file, offset 0, no load and no read of any kind),
`delete("c")` appends its tombstone at offset 28 but records offset 0 in
the index, so afterwards `get("c")` returns Some("1") — the value of the
record of "a" — not the empty byte string; the index entry for "c" does
not point at the tombstone.  (The post-get cursor is the read-ahead
position min(0 + 8192, 41) = 41.) -/
theorem C6_counterexample :
    ceS0.delete [99] = ceS0.insert [99] [] ∧
    idxLookup [99] (ceS0.delete [99]).index = some 0 ∧
    (ceS0.delete [99]).file.drop 28 = encodeFrame [99] [] ∧
    (ceS0.delete [99]).get [99] =
      .ok (some [49], { ceS0.delete [99] with cursor := 41 }) ∧
    ([49] : ByteString) ≠ [] := by decide
